import Mathlib

/-!
Verification development for the quantixis expression engine
(bytecode compiler, stack VM, bytecode encoder, JIT lowering,
runtime environment).  Each definition is a shallow embedding of the
corresponding Rust item; the source file and function are named in the
doc comment of every definition.
-/

namespace Quantixis

/-- Model of an `f64` value.  Finite doubles are represented by exact
rationals together with the three IEEE special classes (`inf`, `-inf`,
`NaN`).  Finite arithmetic is modelled exactly (no rounding) and the
sign of zero is not distinguished; every theorem below evaluates the
operations only at small integer-valued points, where real `f64`
arithmetic is exact and agrees with this model. -/
inductive F64 where
  | finite (q : ℚ)
  | inf
  | negInf
  | nan
deriving DecidableEq, Repr

/-- IEEE negation of an `f64`. -/
def fneg : F64 → F64
  | .finite q => .finite (-q)
  | .inf => .negInf
  | .negInf => .inf
  | .nan => .nan

/-- IEEE addition (`+` on `f64` in Rust, `fadd` in cranelift). -/
def fadd : F64 → F64 → F64
  | .nan, _ => .nan
  | _, .nan => .nan
  | .inf, .negInf => .nan
  | .negInf, .inf => .nan
  | .inf, _ => .inf
  | _, .inf => .inf
  | .negInf, _ => .negInf
  | _, .negInf => .negInf
  | .finite a, .finite b => .finite (a + b)

/-- IEEE subtraction (`-` on `f64` in Rust, `fsub` in cranelift):
`a - b = a + (-b)` exactly. -/
def fsub (a b : F64) : F64 := fadd a (fneg b)

/-- IEEE multiplication (`*` on `f64` in Rust, `fmul` in cranelift). -/
def fmul : F64 → F64 → F64
  | .nan, _ => .nan
  | _, .nan => .nan
  | .finite a, .finite b => .finite (a * b)
  | .inf, .finite b => if 0 < b then .inf else if b < 0 then .negInf else .nan
  | .negInf, .finite b => if 0 < b then .negInf else if b < 0 then .inf else .nan
  | .finite a, .inf => if 0 < a then .inf else if a < 0 then .negInf else .nan
  | .finite a, .negInf => if 0 < a then .negInf else if a < 0 then .inf else .nan
  | .inf, .inf => .inf
  | .inf, .negInf => .negInf
  | .negInf, .inf => .negInf
  | .negInf, .negInf => .inf

/-- IEEE division (`/` on `f64` in Rust, `fdiv` in cranelift).
Division of a nonzero finite value by zero yields a signed infinity and
`0/0` yields NaN; there is no error case. -/
def fdiv : F64 → F64 → F64
  | .nan, _ => .nan
  | _, .nan => .nan
  | .finite a, .finite b =>
      if b = 0 then (if 0 < a then .inf else if a < 0 then .negInf else .nan)
      else .finite (a / b)
  | .inf, .finite b => if b < 0 then .negInf else .inf
  | .negInf, .finite b => if b < 0 then .inf else .negInf
  | .finite _, .inf => .finite 0
  | .finite _, .negInf => .finite 0
  | .inf, .inf => .nan
  | .inf, .negInf => .nan
  | .negInf, .inf => .nan
  | .negInf, .negInf => .nan

/-- Truncation of a rational toward zero (the rounding used by Rust's
`%` on `f64` and by cranelift's `fcvt_to_sint`). -/
def ratTrunc (q : ℚ) : ℤ := if 0 ≤ q then ⌊q⌋ else ⌈q⌉

/-- IEEE remainder (`%` on `f64` in Rust): `a - trunc(a/b) * b`; a zero
divisor yields NaN, never an error. -/
def fmod : F64 → F64 → F64
  | .nan, _ => .nan
  | _, .nan => .nan
  | .inf, _ => .nan
  | .negInf, _ => .nan
  | .finite a, .inf => .finite a
  | .finite a, .negInf => .finite a
  | .finite a, .finite b =>
      if b = 0 then .nan else .finite (a - b * (ratTrunc (a / b) : ℚ))

/-- Models `f64::powf` (used by the bytecode VM's `Pow` opcode).  The
integer-exponent and zero-exponent cases, the only ones any theorem in
this file touches, are modelled exactly; a finite non-integer exponent
is mapped to NaN as a placeholder (no theorem depends on that case). -/
def powf : F64 → F64 → F64
  | _, .nan => .nan
  | a, .finite q =>
      if q = 0 then .finite 1
      else
        match a with
        | .nan => .nan
        | .inf => if 0 < q then .inf else .finite 0
        | .negInf => if 0 < q then .negInf else .finite 0
        | .finite x =>
            if q.den = 1 then
              if x = 0 then (if 0 < q then .finite 0 else .inf)
              else .finite (x ^ q.num)
            else .nan
  | .finite x, .inf => if x = 1 ∨ x = -1 then .finite 1 else
      if -1 < x ∧ x < 1 then .finite 0 else .inf
  | .finite x, .negInf => if x = 1 ∨ x = -1 then .finite 1 else
      if -1 < x ∧ x < 1 then .inf else .finite 0
  | _, .inf => .inf
  | _, .negInf => .finite 0

/-- IEEE ordered equality (`==` on `f64`, `FloatCC::Equal`):
false whenever an operand is NaN. -/
def feq : F64 → F64 → Bool
  | .finite a, .finite b => decide (a = b)
  | .inf, .inf => true
  | .negInf, .negInf => true
  | _, _ => false

/-- IEEE inequality (`!=` on `f64`, `FloatCC::NotEqual`): true for
unordered operands, i.e. the negation of `feq`. -/
def fne (a b : F64) : Bool := !(feq a b)

/-- IEEE `>` (`FloatCC::GreaterThan`): false whenever an operand is NaN. -/
def fgt : F64 → F64 → Bool
  | .finite a, .finite b => decide (b < a)
  | .inf, .finite _ => true
  | .inf, .negInf => true
  | .finite _, .negInf => true
  | _, _ => false

/-- IEEE `<` (`FloatCC::LessThan`). -/
def flt (a b : F64) : Bool := fgt b a

/-- IEEE `>=` (`FloatCC::GreaterThanOrEqual`). -/
def fge (a b : F64) : Bool := fgt a b || feq a b

/-- IEEE `<=` (`FloatCC::LessThanOrEqual`). -/
def fle (a b : F64) : Bool := flt a b || feq a b

/-- The `0.0 / 1.0` float encoding of a boolean, used by the VM's
numeric coercion of `Value::Boolean` (`v as i64 as f64`) and by the
JIT's uniform float representation of booleans. -/
def b01 (b : Bool) : F64 := .finite (if b then 1 else 0)

/-- Models `str::parse::<f64>` on plain decimal literals
(optional sign, digits, optional fractional part), the only string
forms any statement below exercises. -/
def parse_f64 (s : String) : Option F64 :=
  let core (cs : List Char) : Option ℚ :=
    let intPart := cs.takeWhile (·.isDigit)
    let rest := cs.dropWhile (·.isDigit)
    let fracPart : Option (List Char) :=
      match rest with
      | [] => some []
      | '.' :: fs => if fs ≠ [] ∧ fs.all (·.isDigit) then some fs else none
      | _ => none
    match fracPart with
    | none => none
    | some fs =>
        if intPart = [] ∧ fs = [] then none
        else
          let n : ℕ := (intPart ++ fs).foldl (fun acc c => 10 * acc + c.toNat - '0'.toNat) 0
          some ((n : ℚ) / (10 : ℚ) ^ fs.length)
  match s.toList with
  | '-' :: cs => (core cs).map (fun q => .finite (-q))
  | '+' :: cs => (core cs).map (fun q => .finite q)
  | cs => (core cs).map (fun q => .finite q)

/-- Runtime value of the bytecode VM
(`Value` in `src/bytecode/executor.rs`).  The `HashMap` payload of
`Value::Map` is modelled as an association list with first-match
lookup and insertion by prepending (= overwrite semantics). -/
inductive Value where
  | int (n : ℤ)
  | number (x : F64)
  | boolean (b : Bool)
  | str (s : String)
  | arrayF64 (xs : List F64)
  | map (entries : List (String × Value))

/-- First-match association-list lookup, modelling `HashMap::get`
together with prepend-insertion modelling `HashMap::insert`. -/
def lookupA {α : Type} (l : List (String × α)) (k : String) : Option α :=
  match l with
  | [] => none
  | (k', v) :: rest => if k' = k then some v else lookupA rest k

/-- The float a VM value corresponds to under the engine's
"booleans are 0.0/1.0" convention (`Number` is itself, `Boolean` is
`b01`); `none` for values with no float counterpart. -/
def valToF64 : Value → Option F64
  | .number x => some x
  | .boolean b => some (b01 b)
  | _ => none

/-- The bytecode instruction set
(`Bytecode` in `src/bytecode/mod.rs`).  Jump targets are byte offsets
into the encoded stream in the source; the compiler never emits them.
The `PushMap` payload is kept as an entry list; the byte format stores
only its keys inline (values are popped from the stack at runtime). -/
inductive Bytecode where
  | pushInt (n : ℤ)
  | pushFloat (x : F64)
  | pushBool (b : Bool)
  | pushString (s : String)
  | pushArrayF64 (xs : List F64)
  | pushMap (entries : List (String × Value))
  | add
  | sub
  | mul
  | div
  | mod
  | pow
  | and
  | or
  | not
  | eq
  | ne
  | gt
  | ge
  | lt
  | le
  | call (fname : String) (argCount : ℕ)
  | getProperty (prop : String)
  | loadVariable (name : String)
  | storeVariable (name : String)
  | jump (target : ℕ)
  | jumpIfTrue (target : ℕ)
  | jumpIfFalse (target : ℕ)
  | ret
  | noOp

/-- Function registry of the VM
(`functions: HashMap<String, fn(&[Value]) -> Result<Value, String>>`). -/
abbrev FuncReg := String → Option (List Value → Except String Value)

/-- Mutable state of `BytecodeExecutor`: the operand stack and the
bound-variables map.  Both persist across `execute` calls. -/
structure ExecState where
  stack : List Value
  vars : List (String × Value)

/-- Outcome of executing one instruction (or a straight-line list):
continue with a new state, halt early (`Return`), or fail carrying the
error string and the mutated state that the Rust executor retains. -/
inductive StepOut where
  | next (s : ExecState)
  | halt (v : Option Value) (s : ExecState)
  | fail (e : String) (s : ExecState)

/-- `BytecodeExecutor::pop_number` (executor.rs:255-263): pop the top
of stack and coerce it to `f64`; the popped value stays popped even
when the coercion fails. -/
def pop_number (stack : List Value) : Except String F64 × List Value :=
  match stack with
  | [] => (.error "Expected a number on stack", [])
  | v :: rest =>
      (match v with
       | .int n => .ok (.finite (n : ℚ))
       | .number x => .ok x
       | .boolean b => .ok (b01 b)
       | .str s =>
           match parse_f64 s with
           | some x => .ok x
           | none => .error "invalid float literal"
       | _ => .error "Expected a number on stack", rest)

/-- `BytecodeExecutor::pop_bool` (executor.rs:265-272): pop the top of
stack and coerce it to a boolean (`Int`/`Number` nonzero → true). -/
def pop_bool (stack : List Value) : Except String Bool × List Value :=
  match stack with
  | [] => (.error "Expected a boolean on stack", [])
  | v :: rest =>
      (match v with
       | .boolean b => .ok b
       | .int n => .ok (decide (n ≠ 0))
       | .number x => .ok (fne x (.finite 0))
       | _ => .error "Expected a boolean on stack", rest)

/-- The pure numeric-coercion table applied by `pop_number` to a single
popped value. -/
def toNumber : Value → Except String F64
  | .int n => .ok (.finite (n : ℚ))
  | .number x => .ok x
  | .boolean b => .ok (b01 b)
  | .str s =>
      match parse_f64 s with
      | some x => .ok x
      | none => .error "invalid float literal"
  | _ => .error "Expected a number on stack"

/-- The pure boolean-coercion table applied by `pop_bool` to a single
popped value. -/
def toBool : Value → Except String Bool
  | .boolean b => .ok b
  | .int n => .ok (decide (n ≠ 0))
  | .number x => .ok (fne x (.finite 0))
  | _ => .error "Expected a boolean on stack"

/-- `BytecodeExecutor::binary_op` (executor.rs:228-235): pop `b`, then
`a`, coerce both to floats and push `Number(op(a, b))`. -/
def binary_op (f : F64 → F64 → F64) (s : ExecState) : StepOut :=
  match pop_number s.stack with
  | (.error e, st) => .fail e { s with stack := st }
  | (.ok b, st) =>
      match pop_number st with
      | (.error e, st') => .fail e { s with stack := st' }
      | (.ok a, st') => .next { s with stack := .number (f a b) :: st' }

/-- `BytecodeExecutor::binary_op_bool` (executor.rs:237-244): pop `b`,
then `a`, coerce both to booleans and push `Boolean(op(a, b))`. -/
def binary_op_bool (f : Bool → Bool → Bool) (s : ExecState) : StepOut :=
  match pop_bool s.stack with
  | (.error e, st) => .fail e { s with stack := st }
  | (.ok b, st) =>
      match pop_bool st with
      | (.error e, st') => .fail e { s with stack := st' }
      | (.ok a, st') => .next { s with stack := .boolean (f a b) :: st' }

/-- `BytecodeExecutor::unary_op_bool` (executor.rs:246-253). -/
def unary_op_bool (f : Bool → Bool) (s : ExecState) : StepOut :=
  match pop_bool s.stack with
  | (.error e, st) => .fail e { s with stack := st }
  | (.ok a, st) => .next { s with stack := .boolean (f a) :: st }

/-- The value-popping loop of the `PushMap` arm of
`BytecodeExecutor::execute` (executor.rs:86-103): for each inline key,
pop one value off the stack and insert it into the map. -/
def pushMapGo : List String → List (String × Value) → List Value →
    Except String (List (String × Value)) × List Value
  | [], acc, st => (.ok acc, st)
  | _ :: _, _, [] => (.error "Stack underflow for map value", [])
  | k :: ks, acc, v :: rest => pushMapGo ks ((k, v) :: acc) rest

/-- The argument-popping loop of the `Call` arm of
`BytecodeExecutor::execute` (executor.rs:131-136), returning the args
in pop order (the source then reverses them). -/
def popArgs : ℕ → List Value → Option (List Value × List Value)
  | 0, st => some ([], st)
  | _ + 1, [] => none
  | n + 1, v :: rest =>
      match popArgs n rest with
      | none => none
      | some (as_, st') => some (v :: as_, st')

/-- One dispatch step of `BytecodeExecutor::execute`
(executor.rs:42-226), at the instruction level.  The byte-addressed
`Jump*` instructions have no instruction-level counterpart (the
compiler never emits them and no claim involves them); this model maps
them to a failure. -/
def execInstr (fns : FuncReg) : Bytecode → ExecState → StepOut
  | .pushInt n, s => .next { s with stack := .int n :: s.stack }
  | .pushFloat x, s => .next { s with stack := .number x :: s.stack }
  | .pushBool b, s => .next { s with stack := .boolean b :: s.stack }
  | .pushString str, s => .next { s with stack := .str str :: s.stack }
  | .pushArrayF64 xs, s => .next { s with stack := .arrayF64 xs :: s.stack }
  | .pushMap entries, s =>
      match pushMapGo (entries.map Prod.fst) [] s.stack with
      | (.ok m, st') => .next { s with stack := .map m :: st' }
      | (.error e, st') => .fail e { s with stack := st' }
  | .add, s => binary_op fadd s
  | .sub, s => binary_op fsub s
  | .mul, s => binary_op fmul s
  | .div, s => binary_op fdiv s
  | .mod, s => binary_op fmod s
  | .pow, s => binary_op powf s
  | .eq, s => binary_op_bool (fun a b => a == b) s
  | .ne, s => binary_op_bool (fun a b => a != b) s
  | .gt, s => binary_op_bool (fun a b => a && !b) s
  | .lt, s => binary_op_bool (fun a b => !a && b) s
  | .ge, s => binary_op_bool (fun a b => a || !b) s
  | .le, s => binary_op_bool (fun a b => !a || b) s
  | .and, s => binary_op_bool (fun a b => a && b) s
  | .or, s => binary_op_bool (fun a b => a || b) s
  | .not, s => unary_op_bool (fun a => !a) s
  | .call fname argc, s =>
      match fns fname with
      | none => .fail ("Undefined function: " ++ fname) s
      | some f =>
          match popArgs argc s.stack with
          | none => .fail "Stack underflow on function call" { s with stack := [] }
          | some (as_, st') =>
              match f as_.reverse with
              | .error e => .fail e { s with stack := st' }
              | .ok v => .next { s with stack := v :: st' }
  | .loadVariable name, s =>
      match lookupA s.vars name with
      | some v => .next { s with stack := v :: s.stack }
      | none => .fail ("Undefined variable: " ++ name) s
  | .storeVariable name, s =>
      match s.stack with
      | [] => .fail "Stack underflow when storing variable" s
      | v :: rest => .next { stack := rest, vars := (name, v) :: s.vars }
  | .getProperty prop, s =>
      match s.stack with
      | .map entries :: rest =>
          match lookupA entries prop with
          | some v => .next { s with stack := v :: rest }
          | none => .fail ("Undefined property " ++ prop ++ " in object")
              { s with stack := rest }
      | _ :: rest => .fail "Cannot access property on a non-object" { s with stack := rest }
      | [] => .fail "Cannot access property on a non-object" s
  | .jump _, s => .fail "byte-addressed jump: outside instruction-level model" s
  | .jumpIfTrue _, s => .fail "byte-addressed jump: outside instruction-level model" s
  | .jumpIfFalse _, s => .fail "byte-addressed jump: outside instruction-level model" s
  | .ret, s => .halt s.stack.head? { s with stack := s.stack.tail }
  | .noOp, s => .next s

/-- The fetch-execute loop of `BytecodeExecutor::execute` over a
straight-line instruction list. -/
def runList (fns : FuncReg) : List Bytecode → ExecState → StepOut
  | [], s => .next s
  | i :: rest, s =>
      match execInstr fns i s with
      | .next s' => runList fns rest s'
      | .halt v s' => .halt v s'
      | .fail e s' => .fail e s'

/-- `BytecodeExecutor::execute` (executor.rs:42-226): run the
instruction list; at stream end pop and return the top of stack.  The
returned state is the executor's retained state (`self.stack`,
`self.variables`), which the source keeps even when an `Err` is
returned. -/
def execute (fns : FuncReg) (prog : List Bytecode) (s : ExecState) :
    Except String (Option Value) × ExecState :=
  match runList fns prog s with
  | .next s' => (.ok s'.stack.head?, { s' with stack := s'.stack.tail })
  | .halt v s' => (.ok v, s')
  | .fail e s' => (.error e, s')

/-- Operator tokens of an arithmetic chain
(`Rule::arithmetic_expression | exponent | term | factor` in
`src/bytecode/compiler.rs:87-104`). -/
inductive ArithOp where
  | add | sub | mul | div | mod | pow
deriving DecidableEq, Repr

/-- Operator tokens of a comparison chain
(`Rule::comparison_expression` in `src/bytecode/compiler.rs:69-86`). -/
inductive CmpOp where
  | eq | ne | gt | lt | ge | le
deriving DecidableEq, Repr

/-- The opcode `BytecodeCompiler::compile_expression` pushes for an
arithmetic operator token (compiler.rs:94-101). -/
def arithInstr : ArithOp → Bytecode
  | .add => .add
  | .sub => .sub
  | .mul => .mul
  | .div => .div
  | .mod => .mod
  | .pow => .pow

/-- The float operation the VM's dispatch applies for each arithmetic
opcode (executor.rs:104-109). -/
def arithDenote : ArithOp → F64 → F64 → F64
  | .add => fadd
  | .sub => fsub
  | .mul => fmul
  | .div => fdiv
  | .mod => fmod
  | .pow => powf

/-- The opcode `BytecodeCompiler::compile_expression` pushes for a
comparison operator token (compiler.rs:76-83). -/
def cmpInstr : CmpOp → Bytecode
  | .eq => .eq
  | .ne => .ne
  | .gt => .gt
  | .lt => .lt
  | .ge => .ge
  | .le => .le

/-- The boolean comparison the VM applies for each comparison opcode
(executor.rs:110-115): Rust's `==`, `!=`, `>`, `<`, `>=`, `<=` on
`bool`, where `false < true`. -/
def cmpDenote : CmpOp → Bool → Bool → Bool
  | .eq => fun a b => a == b
  | .ne => fun a b => a != b
  | .gt => fun a b => a && !b
  | .lt => fun a b => !a && b
  | .ge => fun a b => a || !b
  | .le => fun a b => !a || b

/-- Parse tree consumed by `BytecodeCompiler::compile_expression`
(`src/bytecode/compiler.rs:31-176`), at the structure the pest pairs
present to the compiler.  The source folds `or`/`and`/comparison/
arithmetic chains left-to-right, emitting the operator opcode after
each operand; a chain `a op b op c` therefore emits exactly the code
of the left-nested binary tree used here.  Named-argument labels of a
function call (skipped by the source, compiler.rs:110-118) are already
dropped: `args` are the argument value expressions. -/
inductive Expr where
  | num (x : F64)
  | boolLit (b : Bool)
  | ident (name : String)
  | notE (e : Expr)
  | orE (l r : Expr)
  | andE (l r : Expr)
  | cmpE (op : CmpOp) (l r : Expr)
  | arithE (op : ArithOp) (l r : Expr)
  | callFn (fname : String) (args : List Expr)
  | propAccess (base : Expr) (props : List String)
  | group (e : Expr)

mutual

/-- `BytecodeCompiler::compile_expression` (compiler.rs:31-176):
postfix emission — operands first, operator opcode last; numbers
become `PushFloat`, booleans `PushBool`, identifiers `LoadVariable`;
grouping is transparent; property access emits one `GetProperty` per
chained property after its base. -/
def compileExpr : Expr → List Bytecode
  | .num x => [.pushFloat x]
  | .boolLit b => [.pushBool b]
  | .ident n => [.loadVariable n]
  | .notE e => compileExpr e ++ [.not]
  | .orE l r => compileExpr l ++ (compileExpr r ++ [.or])
  | .andE l r => compileExpr l ++ (compileExpr r ++ [.and])
  | .cmpE op l r => compileExpr l ++ (compileExpr r ++ [cmpInstr op])
  | .arithE op l r => compileExpr l ++ (compileExpr r ++ [arithInstr op])
  | .callFn n args => compileArgs args ++ [.call n args.length]
  | .propAccess b props => compileExpr b ++ props.map Bytecode.getProperty
  | .group e => compileExpr e

/-- The argument loop of the `Rule::function_call` arm
(compiler.rs:110-118): compile each argument value left-to-right. -/
def compileArgs : List Expr → List Bytecode
  | [] => []
  | e :: es => compileExpr e ++ compileArgs es

end

/-- `BytecodeCompiler::compile` (compiler.rs:17-29): compile the
expression pair, then the `EOI` pair, which emits one final `NoOp`
(compiler.rs:37). -/
def compile (e : Expr) : List Bytecode := compileExpr e ++ [.noOp]

/-- A cranelift SSA value on the JIT compiler's mirror stack
(`stack: Vec<Value>` in `src/jit/compiler.rs`), denoted by the runtime
value it evaluates to: float-typed (`F64`) or integer-typed (`I64`). -/
inductive JVal where
  | f64 (x : F64)
  | i64 (n : ℤ)
deriving DecidableEq, Repr

/-- State threaded through `JITCompiler::compile_main_block`
(`src/jit/compiler.rs:121-354`): the mirror operand stack, the running
`index` counter used to assign `LoadVariable` offsets, and the
`variables` list of names in load order (`vars` here: `variables` as a
field name is reserved in Lean). -/
structure JITState where
  stack : List JVal
  index : ℕ
  vars : List String
deriving DecidableEq, Repr

/-- Registry of external native functions linked into the JIT module
(`functions_map`); an entry denotes the registered native function's
behaviour on its operands.  A native call cannot fail at runtime. -/
abbrev JFuncReg := String → Option (List JVal → JVal)

/-- The environment buffer passed as the compiled function's sole
argument: reading 8 bytes at byte offset `off` from `memory_ptr`
yields the float `envB off`. -/
abbrev JEnv := ℕ → F64

/-- Number of values representable in 64 bits. -/
def U64 : ℕ := 2 ^ 64

/-- The 64-bit two's-complement residue of an integer: the unsigned
value of the `i64` holding `n`. -/
def toU64 (n : ℤ) : ℕ := (n % (U64 : ℤ)).toNat

/-- `fcvt_to_sint` on an I64 destination (cranelift): truncate toward
zero; NaN, infinities and out-of-range values trap (`none`). -/
def fcvtToSint (x : F64) : Option ℤ :=
  match x with
  | .finite q =>
      let t := ratTrunc q
      if -(2 ^ 63) ≤ t ∧ t < 2 ^ 63 then some t else none
  | _ => none

/-- One iteration of the loop body generated by `pow`
(`src/jit/functions/pow.rs:46-62`) on the pair
(loop-carried `result`, unsigned residue of the `i64` counter):
`result = result * a`, `counter = counter - 1` with 64-bit wrap-around
(`isub` wraps). -/
def powStep (a : F64) (s : F64 × ℕ) : F64 × ℕ :=
  (fmul s.1 a, (s.2 + (U64 - 1)) % U64)

/-- The state of the generated pow loop after `k` body iterations from
the entry state (`result = 1.0`, counter residue `c`). -/
def powIterN (a : F64) : ℕ → F64 × ℕ → F64 × ℕ
  | 0, s => s
  | k + 1, s => powIterN a k (powStep a s)

/-- The generated pow loop (pow.rs:41-62) branches to the exit block
exactly when the counter is zero — checked once on entry and after
every body iteration.  `powExitsAt a c k` states that, started with
counter residue `c`, the loop reaches the exit branch for the first
time after exactly `k` body iterations. -/
def powExitsAt (a : F64) (c k : ℕ) : Prop :=
  (powIterN a k (.finite 1, c)).2 = 0 ∧ ∀ j < k, (powIterN a j (.finite 1, c)).2 ≠ 0

/-- The value the generated pow function returns when the loop exits
after `k` iterations (the loop-carried `result`, initialised to 1.0). -/
def powResult (a : F64) (c k : ℕ) : F64 := (powIterN a k (.finite 1, c)).1

/-- The product of `n` copies of `a` times an accumulator `r` — the
fold the pow loop's `result = result * a` body computes. -/
def fmulPow (r a : F64) : ℕ → F64
  | 0 => r
  | n + 1 => fmulPow (fmul r a) a n

/-- "The product of n copies of the base": folding `fmul` over
`n` copies of `a` starting from 1.0. -/
def prodCopies (a : F64) (n : ℕ) : F64 :=
  (List.replicate n a).foldl fmul (.finite 1)

/-- Total-function semantics of the generated pow routine under the
wrap-around counter: from residue `c` the loop performs exactly `c`
multiplications (see `powIterN`); `c = 0` skips the loop entirely. -/
def powFnValue (a : F64) (c : ℕ) : F64 := fmulPow (.finite 1) a c

/-- `bnot` on the `i8` produced by `fcmp` (0 or 1), then
`fcvt_from_sint` to F64, as generated for `Bytecode::Not`
(jit/compiler.rs:214-222): two's-complement bitwise NOT of 1 is -2 and
of 0 is -1. -/
def jitNotVal (aeq : Bool) : F64 := .finite (if aeq then -2 else -1)

/-- Pop the top of the JIT mirror stack
(`JITCompiler::pop_value`, jit/compiler.rs:370-374). -/
def jpop (s : JITState) : Except String (JVal × JITState) :=
  match s.stack with
  | [] => .error "Stack underflow"
  | v :: rest => .ok (v, { s with stack := rest })

/-- Require a float-typed SSA value: a float instruction applied to an
I64-typed operand is rejected by the cranelift verifier when the
function is defined, surfaced as a compile error. -/
def asF64 : JVal → Except String F64
  | .f64 x => .ok x
  | .i64 _ => .error "cranelift verifier: float op on i64 value"

/-- `JITCompiler::binary_op` (jit/compiler.rs:45-54) specialised to a
float-valued operator: pop `b`, then `a`, push `op(a, b)`. -/
def jitBinF (f : F64 → F64 → F64) (s : JITState) : Except String JITState := do
  let (vb, s1) ← jpop s
  let (va, s2) ← jpop s1
  let b ← asF64 vb
  let a ← asF64 va
  .ok { s2 with stack := .f64 (f a b) :: s2.stack }

/-- The argument-popping loop of the JIT `Call` arm
(jit/compiler.rs:253-258), in pop order. -/
def jpopArgs : ℕ → List JVal → Option (List JVal × List JVal)
  | 0, st => some ([], st)
  | _ + 1, [] => none
  | n + 1, v :: rest =>
      match jpopArgs n rest with
      | none => none
      | some (as_, st') => some (v :: as_, st')

/-- One arm of `JITCompiler::compile_main_block`
(`src/jit/compiler.rs:132-350`), combined with the runtime semantics
of the cranelift instructions it emits: compile-time failures
(stack underflow, unregistered function, unsupported instruction,
verifier type mismatch) and generated-code behaviour are folded into
one `Except`-valued step.

Key arms: `Mod` converts both operands to i64 (`fcvt_to_sint`,
trapping on NaN/∞/overflow), takes `srem` and converts back; `Pow`
calls the generated loop (`powFnValue` after `fcvt_to_sint`); `And`/
`Or` compare both floats against 0.0 and combine the boolean bits;
comparisons apply `fcmp` directly to the floats, producing 0.0/1.0;
`LoadVariable` loads the float at byte offset `index * 8` and appends
the name to `variables`, incrementing `index` for every occurrence
(lines 272-284). -/
def jitStep (funcs : JFuncReg) (envB : JEnv) : Bytecode → JITState →
    Except String JITState
  | .pushInt n, s => .ok { s with stack := .i64 n :: s.stack }
  | .pushFloat x, s => .ok { s with stack := .f64 x :: s.stack }
  | .pushBool b, s => .ok { s with stack := .f64 (b01 b) :: s.stack }
  | .add, s => jitBinF fadd s
  | .sub, s => jitBinF fsub s
  | .mul, s => jitBinF fmul s
  | .div, s => jitBinF fdiv s
  | .mod, s => do
      let (vb, s1) ← jpop s
      let (va, s2) ← jpop s1
      let b ← asF64 vb
      let a ← asF64 va
      match fcvtToSint a, fcvtToSint b with
      | some ai, some bi =>
          if bi = 0 then .error "srem trap: integer division by zero"
          else .ok { s2 with stack := .f64 (.finite ((Int.tmod ai bi : ℤ) : ℚ)) :: s2.stack }
      | _, _ => .error "fcvt_to_sint trap"
  | .pow, s => do
      let (vb, s1) ← jpop s
      let (va, s2) ← jpop s1
      let b ← asF64 vb
      let a ← asF64 va
      match fcvtToSint b with
      | some n => .ok { s2 with stack := .f64 (powFnValue a (toU64 n)) :: s2.stack }
      | none => .error "fcvt_to_sint trap"
  | .or, s => jitBinF (fun a b => b01 (fne a (.finite 0) || fne b (.finite 0))) s
  | .and, s => jitBinF (fun a b => b01 (fne a (.finite 0) && fne b (.finite 0))) s
  | .not, s => do
      let (va, s1) ← jpop s
      let a ← asF64 va
      .ok { s1 with stack := .f64 (jitNotVal (feq a (.finite 0))) :: s1.stack }
  | .eq, s => jitBinF (fun a b => b01 (feq a b)) s
  | .ne, s => jitBinF (fun a b => b01 (fne a b)) s
  | .gt, s => jitBinF (fun a b => b01 (fgt a b)) s
  | .ge, s => jitBinF (fun a b => b01 (fge a b)) s
  | .lt, s => jitBinF (fun a b => b01 (flt a b)) s
  | .le, s => jitBinF (fun a b => b01 (fle a b)) s
  | .call fname argc, s =>
      match jpopArgs argc s.stack with
      | none => .error "Stack underflow"
      | some (as_, st') =>
          match funcs fname with
          | none => .error ("Undefined function: " ++ fname)
          | some f => .ok { s with stack := f as_.reverse :: st' }
  | .loadVariable name, s =>
      .ok { stack := .f64 (envB (s.index * 8)) :: s.stack,
            index := s.index + 1,
            vars := s.vars ++ [name] }
  | .noOp, s => .ok s
  | _, _ => .error "invalid bytecode"

/-- The instruction loop of `JITCompiler::compile_main_block`. -/
def jitRun (funcs : JFuncReg) (envB : JEnv) : List Bytecode → JITState →
    Except String JITState
  | [], s => .ok s
  | i :: rest, s => do
      let s' ← jitStep funcs envB i s
      jitRun funcs envB rest s'

/-- `JITCompiler::compile` (jit/compiler.rs:57-112) followed by
executing the compiled function: run the main block from an empty
state, pop the single remaining stack value (`pop_value` line 88) and
return it through the function's F64 return slot. -/
def jit_execute (funcs : JFuncReg) (envB : JEnv) (prog : List Bytecode) :
    Except String F64 := do
  let s ← jitRun funcs envB prog { stack := [], index := 0, vars := [] }
  let (v, _) ← jpop s
  asF64 v

/-- The slot-name list `JITCompiler::compile_main_block` returns (the
`variables` vector): one entry per `LoadVariable` occurrence. -/
def jitVarList (funcs : JFuncReg) (envB : JEnv) (prog : List Bytecode) :
    Except String (List String) := do
  let s ← jitRun funcs envB prog { stack := [], index := 0, vars := [] }
  .ok s.vars

/-- One chunk of output emitted by `BytecodeEncoder::encode`
(`src/bytecode/encoder.rs:6-64`).  Multi-byte payloads are kept as
typed chunks (their little-endian byte expansion is injective and not
needed by any statement below). -/
inductive EncItem where
  | byte (b : ℕ)
  | i64le (n : ℤ)
  | f64le (x : F64)
  | u32le (n : ℕ)
  | utf8 (s : String)
  | usizele (n : ℕ)
deriving DecidableEq, Repr

/-- The per-instruction arm of `BytecodeEncoder::encode`
(encoder.rs:9-61): opcode byte (values from the `OpCode` enum in
`src/bytecode/mod.rs`) followed by the payload.  The catch-all arm of
the source is `unimplemented!(...)` — a panic — modelled as `none`:
`Pow`, `Call`, `GetProperty`, `LoadVariable`, `StoreVariable`,
`PushArrayF64` and `PushMap` have no encoding. -/
def encodeInstr : Bytecode → Option (List EncItem)
  | .pushInt n => some [.byte 0x01, .i64le n]
  | .pushFloat x => some [.byte 0x02, .f64le x]
  | .pushBool b => some [.byte 0x03, .byte (if b then 1 else 0)]
  | .pushString s => some [.byte 0x04, .u32le s.utf8ByteSize, .utf8 s]
  | .add => some [.byte 0x10]
  | .sub => some [.byte 0x11]
  | .mul => some [.byte 0x12]
  | .div => some [.byte 0x13]
  | .mod => some [.byte 0x14]
  | .and => some [.byte 0x20]
  | .or => some [.byte 0x21]
  | .not => some [.byte 0x22]
  | .eq => some [.byte 0x30]
  | .ne => some [.byte 0x31]
  | .gt => some [.byte 0x32]
  | .ge => some [.byte 0x33]
  | .lt => some [.byte 0x34]
  | .le => some [.byte 0x35]
  | .jump a => some [.byte 0x70, .usizele a]
  | .jumpIfTrue a => some [.byte 0x71, .usizele a]
  | .jumpIfFalse a => some [.byte 0x72, .usizele a]
  | .ret => some [.byte 0x73]
  | .noOp => some [.byte 0xFF]
  | _ => none

/-- `BytecodeEncoder::encode` over an instruction sequence: the source
loop panics (`unimplemented!`) as soon as it reaches an instruction
with no encoding arm, so the whole encoding is `none` whenever any
instruction in the sequence is unencodable. -/
def encode : List Bytecode → Option (List EncItem)
  | [] => some []
  | i :: rest =>
      match encodeInstr i, encode rest with
      | some c, some cs => some (c ++ cs)
      | _, _ => none

/-- Contents of one 64-bit slot word of the runtime environment
(`data: Vec<i64>` in `src/jit/rt_env.rs`): an i64 value, the bit
pattern of an f64, or a pointer to an out-of-band array allocation
(modelled by the array it points to). -/
inductive Word where
  | intW (n : ℤ)
  | floatW (x : F64)
  | ptrW (arr : List F64)
deriving DecidableEq, Repr

/-- Ghost heap tracking the slot-buffer allocations made by
`RuntimeEnvironment::init`: `next` is a fresh-id source, `slotLive`
the ids of currently live slot-buffer blocks. -/
structure Heap where
  next : ℕ
  slotLive : List ℕ
deriving DecidableEq, Repr

/-- `RuntimeEnvironment` (`src/jit/rt_env.rs:33-40`): the name→slot
map, the slot words, and the cached pointer of the last `init()`
allocation (`none` models the null pointer). -/
structure RuntimeEnvironment where
  map : List (String × ℕ)
  data : List Word
  ptr : Option ℕ
deriving DecidableEq, Repr

/-- `RuntimeEnvironment::new` (rt_env.rs:44-54): enumerate the names
into the map (`HashMap::insert`, so a repeated name keeps its last
index), zero-fill one word per name, null pointer. -/
def rtNew (names : List String) : RuntimeEnvironment :=
  { map := ((names.enum).foldl (fun m p => (p.2, p.1) :: m) []),
    data := List.replicate names.length (.intW 0),
    ptr := none }

/-- Common body of the `set_*` accessors (rt_env.rs:57-134): write the
word into the named slot if the name is mapped, otherwise do nothing. -/
def rtSet (env : RuntimeEnvironment) (name : String) (w : Word) :
    RuntimeEnvironment :=
  match lookupA env.map name with
  | some idx => { env with data := env.data.set idx w }
  | none => env

/-- `RuntimeEnvironment::set_i64`. -/
def set_i64 (env : RuntimeEnvironment) (name : String) (v : ℤ) :
    RuntimeEnvironment := rtSet env name (.intW v)

/-- `RuntimeEnvironment::set_f64` (stores the f64 bit pattern). -/
def set_f64 (env : RuntimeEnvironment) (name : String) (v : F64) :
    RuntimeEnvironment := rtSet env name (.floatW v)

/-- `RuntimeEnvironment::set_bool` (true → 1, false → 0). -/
def set_bool (env : RuntimeEnvironment) (name : String) (v : Bool) :
    RuntimeEnvironment := rtSet env name (.intW (if v then 1 else 0))

/-- `RuntimeEnvironment::set_array_f64` (stores a pointer to an
out-of-band `ArrayMeta` allocation, modelled by value). -/
def set_array_f64 (env : RuntimeEnvironment) (name : String)
    (arr : List F64) : RuntimeEnvironment := rtSet env name (.ptrW arr)

/-- `RuntimeEnvironment::init` (rt_env.rs:150-164): if a block is
already cached, drop it first; then allocate a fresh contiguous block
for the data when (and only when) `data` is non-empty, else leave the
pointer null. -/
def init (env : RuntimeEnvironment) (h : Heap) :
    RuntimeEnvironment × Heap :=
  let h1 : Heap :=
    match env.ptr with
    | some p => { h with slotLive := h.slotLive.erase p }
    | none => h
  if env.data.length > 0 then
    ({ env with ptr := some h1.next },
     { next := h1.next + 1, slotLive := h1.next :: h1.slotLive })
  else
    ({ env with ptr := none }, h1)

/-- `RuntimeEnvironment::as_ptr` (rt_env.rs:167-169). -/
def as_ptr (env : RuntimeEnvironment) : Option ℕ := env.ptr

/-- An operation an embedder may perform on a `RuntimeEnvironment`
between its creation and its destruction. -/
inductive REOp where
  | opSetI64 (name : String) (v : ℤ)
  | opSetF64 (name : String) (v : F64)
  | opSetBool (name : String) (v : Bool)
  | opSetArrayF64 (name : String) (arr : List F64)
  | opInit

/-- Apply one environment operation. -/
def applyOp (s : RuntimeEnvironment × Heap) (op : REOp) :
    RuntimeEnvironment × Heap :=
  match op with
  | .opSetI64 n v => (set_i64 s.1 n v, s.2)
  | .opSetF64 n v => (set_f64 s.1 n v, s.2)
  | .opSetBool n v => (set_bool s.1 n v, s.2)
  | .opSetArrayF64 n a => (set_array_f64 s.1 n a, s.2)
  | .opInit => init s.1 s.2

/-- Apply a sequence of environment operations. -/
def applyOps (s : RuntimeEnvironment × Heap) (ops : List REOp) :
    RuntimeEnvironment × Heap := ops.foldl applyOp s

/-- The fragment of the expression language for which bytecode-VM and
JIT execution agree: float literals, boolean literals, float-bound
variables, the four float arithmetic operators and the
non-short-circuit AND/OR. -/
inductive PExpr where
  | num (x : F64)
  | boolLit (b : Bool)
  | _var (name : String)
  | addE (l r : PExpr)
  | subE (l r : PExpr)
  | mulE (l r : PExpr)
  | divE (l r : PExpr)
  | andE (l r : PExpr)
  | orE (l r : PExpr)

/-- The parse tree a `PExpr` stands for. -/
def toExpr : PExpr → Expr
  | .num x => .num x
  | .boolLit b => .boolLit b
  | ._var n => .ident n
  | .addE l r => .arithE .add (toExpr l) (toExpr r)
  | .subE l r => .arithE .sub (toExpr l) (toExpr r)
  | .mulE l r => .arithE .mul (toExpr l) (toExpr r)
  | .divE l r => .arithE .div (toExpr l) (toExpr r)
  | .andE l r => .andE (toExpr l) (toExpr r)
  | .orE l r => .orE (toExpr l) (toExpr r)

/-- The variable names a `PExpr` loads, in execution order (one entry
per occurrence). -/
def pvars : PExpr → List String
  | .num _ => []
  | .boolLit _ => []
  | ._var n => [n]
  | .addE l r => pvars l ++ pvars r
  | .subE l r => pvars l ++ pvars r
  | .mulE l r => pvars l ++ pvars r
  | .divE l r => pvars l ++ pvars r
  | .andE l r => pvars l ++ pvars r
  | .orE l r => pvars l ++ pvars r

/-- Shared denotation of the parity fragment, as a float (booleans as
0.0/1.0, AND/OR by comparing against 0.0 — the coercion both backends
apply). -/
def peval (ρ : String → F64) : PExpr → F64
  | .num x => x
  | .boolLit b => b01 b
  | ._var n => ρ n
  | .addE l r => fadd (peval ρ l) (peval ρ r)
  | .subE l r => fsub (peval ρ l) (peval ρ r)
  | .mulE l r => fmul (peval ρ l) (peval ρ r)
  | .divE l r => fdiv (peval ρ l) (peval ρ r)
  | .andE l r =>
      b01 (fne (peval ρ l) (.finite 0) && fne (peval ρ r) (.finite 0))
  | .orE l r =>
      b01 (fne (peval ρ l) (.finite 0) || fne (peval ρ r) (.finite 0))

/-- The VM value representing a float of the parity fragment: either
the float itself or a boolean standing for 0.0/1.0. -/
def PRepr (v : Value) (x : F64) : Prop := valToF64 v = some x

/-- The bytecode the compiler emits for a parity-fragment expression
(specialisation of `compileExpr`, see `compileP_eq`). -/
def compileP : PExpr → List Bytecode
  | .num x => [.pushFloat x]
  | .boolLit b => [.pushBool b]
  | ._var n => [.loadVariable n]
  | .addE l r => compileP l ++ (compileP r ++ [.add])
  | .subE l r => compileP l ++ (compileP r ++ [.sub])
  | .mulE l r => compileP l ++ (compileP r ++ [.mul])
  | .divE l r => compileP l ++ (compileP r ++ [.div])
  | .andE l r => compileP l ++ (compileP r ++ [.and])
  | .orE l r => compileP l ++ (compileP r ++ [.or])

/-- The empty VM function registry. -/
def noFns : FuncReg := fun _ => none

/-- A registry with a single function `boom` that always returns an
error — a stand-in for a side-effecting/failing right operand. -/
def boomFns : FuncReg :=
  fun n => if n = "boom" then some (fun _ => .error "boom") else none

/-- The empty JIT function registry. -/
def noJFns : JFuncReg := fun _ => none

/-- An all-zero environment buffer. -/
def envZero : JEnv := fun _ => .finite 0

/-- An environment buffer holding 1.0 at byte offset 0 and 2.0 at byte
offset 8 (i.e. slots 0 and 1), zero elsewhere. -/
def envB12 : JEnv :=
  fun off => if off = 0 then .finite 1 else if off = 8 then .finite 2 else .finite 0

/-- An environment buffer holding 2.0 in slot 0. -/
def envBx2 : JEnv := fun off => if off = 0 then .finite 2 else .finite 0

/-- VM bindings with `x` bound to `Number(2.0)`. -/
def bindX2 : List (String × Value) := [("x", .number (.finite 2))]

/-- Valuation assigning 2.0 to every variable (only `x` is consulted). -/
def rhoX2 : String → F64 := fun _ => .finite 2

/-! ### Shared lemmas -/

/-- Straight-line composition of the VM's fetch-execute loop. -/
theorem runList_append (fns : FuncReg) (p q : List Bytecode) (st : ExecState) :
    runList fns (p ++ q) st =
      match runList fns p st with
      | .next s' => runList fns q s'
      | .halt v s' => .halt v s'
      | .fail e s' => .fail e s' := by
  induction p generalizing st with
  | nil => simp [runList]
  | cons i rest ih =>
      simp only [List.cons_append, runList]
      cases execInstr fns i st with
      | next s' => exact ih s'
      | halt v s' => rfl
      | fail e s' => rfl

/-- Popping from a non-empty stack applies the pure coercion table. -/
theorem pop_number_cons (v : Value) (rest : List Value) :
    pop_number (v :: rest) = (toNumber v, rest) := by
  cases v <;> rfl

/-- Popping from a non-empty stack applies the pure coercion table. -/
theorem pop_bool_cons (v : Value) (rest : List Value) :
    pop_bool (v :: rest) = (toBool v, rest) := by
  cases v <;> rfl

/-- `binary_op` on a stack with two values visible: pop and coerce the
top (`b`), then the next (`a`), push `Number (f a b)`. -/
theorem binary_op_cons (f : F64 → F64 → F64) (v1 v2 : Value)
    (s : List Value) (vars : List (String × Value)) :
    binary_op f ⟨v2 :: v1 :: s, vars⟩ =
      match toNumber v2 with
      | .error e => .fail e ⟨v1 :: s, vars⟩
      | .ok b =>
          match toNumber v1 with
          | .error e => .fail e ⟨s, vars⟩
          | .ok a => .next ⟨.number (f a b) :: s, vars⟩ := by
  simp only [binary_op, pop_number_cons]
  cases toNumber v2 with
  | error e => rfl
  | ok b =>
      simp only [pop_number_cons]
      cases toNumber v1 <;> rfl

/-- `binary_op_bool` on a stack with two values visible. -/
theorem binary_op_bool_cons (f : Bool → Bool → Bool) (v1 v2 : Value)
    (s : List Value) (vars : List (String × Value)) :
    binary_op_bool f ⟨v2 :: v1 :: s, vars⟩ =
      match toBool v2 with
      | .error e => .fail e ⟨v1 :: s, vars⟩
      | .ok b =>
          match toBool v1 with
          | .error e => .fail e ⟨s, vars⟩
          | .ok a => .next ⟨.boolean (f a b) :: s, vars⟩ := by
  simp only [binary_op_bool, pop_bool_cons]
  cases toBool v2 with
  | error e => rfl
  | ok b =>
      simp only [pop_bool_cons]
      cases toBool v1 <;> rfl

/-- A value that stands for a float coerces to exactly that float. -/
theorem toNumber_of_valToF64 {v : Value} {x : F64} (h : valToF64 v = some x) :
    toNumber v = .ok x := by
  cases v <;> simp [valToF64] at h <;> simp [toNumber, ← h]

/-- A value that stands for a float coerces to the boolean
"that float is nonzero". -/
theorem toBool_of_valToF64 {v : Value} {x : F64} (h : valToF64 v = some x) :
    toBool v = .ok (fne x (.finite 0)) := by
  cases v with
  | number y => simp [valToF64] at h; simp [toBool, ← h]
  | boolean b =>
      simp [valToF64] at h
      subst h
      cases b <;> simp [toBool, b01, fne, feq]
  | _ => simp [valToF64] at h

/-! ### Claim theorems -/

/-- C2, counterexample: evaluating `10 / 0` end-to-end (compile then
execute) returns `Ok(Number(inf))`, not a `RuntimeError` — the claim's
required error does not occur. -/
theorem C2_counterexample :
    execute noFns (compile (.arithE .div (.num (.finite 10)) (.num (.finite 0)))) ⟨[], []⟩
      = (.ok (some (.number .inf)), ⟨[], []⟩) := rfl

/-- C2, amended: `Div` and `Mod` apply the raw IEEE float operations
with no zero-divisor check: a positive dividend over zero pushes
`Number(inf)`, a negative one `Number(-inf)`, `0/0` and `x % 0` push
`Number(NaN)`; no `RuntimeError` is produced, and `10 / 0` evaluates
end-to-end to `Number(inf)`. -/
theorem C2_div_mod_ieee :
    (∀ q : ℚ, 0 < q → fdiv (.finite q) (.finite 0) = .inf)
  ∧ (∀ q : ℚ, q < 0 → fdiv (.finite q) (.finite 0) = .negInf)
  ∧ fdiv (.finite 0) (.finite 0) = .nan
  ∧ (∀ q : ℚ, fmod (.finite q) (.finite 0) = .nan)
  ∧ (∀ (fns : FuncReg) (x y : F64) (s : List Value) (vars : List (String × Value)),
      execInstr fns .div ⟨.number y :: .number x :: s, vars⟩
        = .next ⟨.number (fdiv x y) :: s, vars⟩)
  ∧ (∀ (fns : FuncReg) (x y : F64) (s : List Value) (vars : List (String × Value)),
      execInstr fns .mod ⟨.number y :: .number x :: s, vars⟩
        = .next ⟨.number (fmod x y) :: s, vars⟩)
  ∧ execute noFns (compile (.arithE .div (.num (.finite 10)) (.num (.finite 0)))) ⟨[], []⟩
      = (.ok (some (.number .inf)), ⟨[], []⟩) := by
  refine ⟨?_, ?_, rfl, ?_, ?_, ?_, rfl⟩
  · intro q h; simp [fdiv, h, h.not_lt]
  · intro q h; simp [fdiv, h, h.not_lt, h.ne]
  · intro q; simp [fmod]
  · intro fns x y s vars
    simp [execInstr, binary_op_cons, toNumber]
  · intro fns x y s vars
    simp [execInstr, binary_op_cons, toNumber]

/-- C2, witness for the amended theorem at dividend 10. -/
theorem C2_witness :
    (0 : ℚ) < 10 ∧ fdiv (.finite 10) (.finite 0) = .inf :=
  ⟨by decide, C2_div_mod_ieee.1 10 (by decide)⟩

/-- C3: the bytecode encoder cannot round-trip the compiler's output:
the compiled form of the bare identifier `x` (and of any expression
containing a variable load, call, property access or `^`) hits the
encoder's `unimplemented!` catch-all (modelled as `none`), so
`decode(encode(x)) = x` fails and the encoder panics on such
sequences. -/
theorem C3_encode_unimplemented :
    compile (.ident "x") = [.loadVariable "x", .noOp]
  ∧ encode (compile (.ident "x")) = none
  ∧ compile (.callFn "square" [.ident "x"])
      = [.loadVariable "x", .call "square" 1, .noOp]
  ∧ encode (compile (.callFn "square" [.ident "x"])) = none
  ∧ encode [.call "square" 1] = none
  ∧ encode [.getProperty "value"] = none
  ∧ encode [.pow] = none
  ∧ encode [.storeVariable "x"] = none
  ∧ encode [.add, .loadVariable "x"] = none
  ∧ encode [.pushFloat (.finite 2), .pushFloat (.finite 3), .add, .noOp]
      = some [.byte 0x02, .f64le (.finite 2), .byte 0x02, .f64le (.finite 3),
              .byte 0x10, .byte 0xFF] :=
  ⟨rfl, rfl, rfl, rfl, rfl, rfl, rfl, rfl, rfl, rfl⟩

/-- C5: logical AND/OR evaluate both operands unconditionally — the
compiler emits the left operand's code, then the right operand's code,
then the single `And`/`Or` opcode; the VM pops and boolean-coerces
both values; concretely, in `false AND boom()` the call to `boom`
executes (and its error surfaces) even though the left operand already
determines the result. -/
theorem C5_no_short_circuit :
    (∀ l r : Expr, compileExpr (.andE l r) = compileExpr l ++ (compileExpr r ++ [.and]))
  ∧ (∀ l r : Expr, compileExpr (.orE l r) = compileExpr l ++ (compileExpr r ++ [.or]))
  ∧ (∀ (fns : FuncReg) (v1 v2 : Value) (s : List Value) (vars : List (String × Value)),
      execInstr fns .and ⟨v2 :: v1 :: s, vars⟩ =
        match toBool v2 with
        | .error e => .fail e ⟨v1 :: s, vars⟩
        | .ok b =>
            match toBool v1 with
            | .error e => .fail e ⟨s, vars⟩
            | .ok a => .next ⟨.boolean (a && b) :: s, vars⟩)
  ∧ (∀ (fns : FuncReg) (v1 v2 : Value) (s : List Value) (vars : List (String × Value)),
      execInstr fns .or ⟨v2 :: v1 :: s, vars⟩ =
        match toBool v2 with
        | .error e => .fail e ⟨v1 :: s, vars⟩
        | .ok b =>
            match toBool v1 with
            | .error e => .fail e ⟨s, vars⟩
            | .ok a => .next ⟨.boolean (a || b) :: s, vars⟩)
  ∧ execute boomFns (compile (.andE (.boolLit false) (.callFn "boom" []))) ⟨[], []⟩
      = (.error "boom", ⟨[.boolean false], []⟩) := by
  refine ⟨fun l r => rfl, fun l r => rfl, ?_, ?_, rfl⟩
  · intro fns v1 v2 s vars
    simp [execInstr, binary_op_bool_cons]
  · intro fns v1 v2 s vars
    simp [execInstr, binary_op_bool_cons]

/-- C6, counterexample: the stack of a failed evaluation is NOT
discarded — running `[PushFloat 2, Add]` on the same executor after
the failed run of `[PushFloat 1, LoadVariable x]` yields a different
result (`Ok(Number(3))`) than running it on a fresh executor
(a stack-underflow type error), so a later `execute` call is affected
by the failed run. -/
theorem C6_counterexample :
    (execute noFns [.pushFloat (.finite 2), .add]
        (execute noFns [.pushFloat (.finite 1), .loadVariable "x"] ⟨[], []⟩).2).1
      ≠ (execute noFns [.pushFloat (.finite 2), .add] ⟨[], []⟩).1 := by
  simp [execute, runList, execInstr, binary_op, pop_number, toNumber, lookupA]

/-- C6, amended: a failing `execute` call itself surfaces only `Err`
(no partial value), but the stack it accumulated is retained in the
executor: after `[PushFloat 1, LoadVariable x]` fails with "Undefined
variable", `Number(1)` is still on the stack, and a later execute call
on that state consumes it (returning `Number(3)` where a fresh
executor errors). -/
theorem C6_state_retained :
    execute noFns [.pushFloat (.finite 1), .loadVariable "x"] ⟨[], []⟩
      = (.error "Undefined variable: x", ⟨[.number (.finite 1)], []⟩)
  ∧ execute noFns [.pushFloat (.finite 2), .add] ⟨[.number (.finite 1)], []⟩
      = (.ok (some (.number (.finite 3))), ⟨[], []⟩)
  ∧ execute noFns [.pushFloat (.finite 2), .add] ⟨[], []⟩
      = (.error "Expected a number on stack", ⟨[], []⟩) := by
  refine ⟨rfl, ?_, rfl⟩
  have h : fadd (.finite 1) (.finite 2) = .finite 3 := by
    show F64.finite (1 + 2) = F64.finite 3; norm_num
  simp [execute, runList, execInstr, binary_op, pop_number, toNumber, h]

/-- C7: every binary arithmetic instruction pops two operands, coerces
each to a float (`Int` as a float, `Number` as itself, `Boolean` as
0.0/1.0, `Str` as its parsed float or an error, anything else a type
error) and always pushes a `Number`; concretely `true + 3` evaluates
to `Number(4.0)`. -/
theorem C7_arith_coercion :
    (∀ (fns : FuncReg) (op : ArithOp) (v1 v2 : Value) (s : List Value)
        (vars : List (String × Value)),
      execInstr fns (arithInstr op) ⟨v2 :: v1 :: s, vars⟩ =
        match toNumber v2 with
        | .error e => .fail e ⟨v1 :: s, vars⟩
        | .ok b =>
            match toNumber v1 with
            | .error e => .fail e ⟨s, vars⟩
            | .ok a => .next ⟨.number (arithDenote op a b) :: s, vars⟩)
  ∧ (∀ n : ℤ, toNumber (.int n) = .ok (.finite (n : ℚ)))
  ∧ (∀ x : F64, toNumber (.number x) = .ok x)
  ∧ toNumber (.boolean true) = .ok (.finite 1)
  ∧ toNumber (.boolean false) = .ok (.finite 0)
  ∧ (∀ s : String, toNumber (.str s) =
      match parse_f64 s with
      | some x => .ok x
      | none => .error "invalid float literal")
  ∧ (∀ xs : List F64, toNumber (.arrayF64 xs) = .error "Expected a number on stack")
  ∧ (∀ m : List (String × Value), toNumber (.map m) = .error "Expected a number on stack")
  ∧ execute noFns (compile (.arithE .add (.boolLit true) (.num (.finite 3)))) ⟨[], []⟩
      = (.ok (some (.number (.finite 4))), ⟨[], []⟩) := by
  refine ⟨?_, fun n => rfl, fun x => rfl, rfl, rfl, fun s => rfl, fun xs => rfl,
    fun m => rfl, ?_⟩
  · intro fns op v1 v2 s vars
    cases op <;> simp [execInstr, arithInstr, arithDenote, binary_op_cons]
  · have h : fadd (b01 true) (.finite 3) = .finite 4 := by
      show F64.finite (1 + 3) = F64.finite 4; norm_num
    simp [execute, compile, compileExpr, arithInstr, runList, execInstr, binary_op,
      pop_number, toNumber, h]

/-- C10: every comparison instruction boolean-coerces both popped
operands (a number is true exactly when nonzero) and compares the two
booleans; when both operands coerce to true, `>` yields
`Boolean(false)` and `==` yields `Boolean(true)`; concretely both
`10 > true` and `10 > 3` evaluate to `Boolean(false)`. -/
theorem C10_cmp_on_bools :
    (∀ (fns : FuncReg) (op : CmpOp) (v1 v2 : Value) (s : List Value)
        (vars : List (String × Value)),
      execInstr fns (cmpInstr op) ⟨v2 :: v1 :: s, vars⟩ =
        match toBool v2 with
        | .error e => .fail e ⟨v1 :: s, vars⟩
        | .ok b =>
            match toBool v1 with
            | .error e => .fail e ⟨s, vars⟩
            | .ok a => .next ⟨.boolean (cmpDenote op a b) :: s, vars⟩)
  ∧ (∀ q : ℚ, toBool (.number (.finite q)) = .ok (decide (q ≠ 0)))
  ∧ (∀ n : ℤ, toBool (.int n) = .ok (decide (n ≠ 0)))
  ∧ (∀ b : Bool, toBool (.boolean b) = .ok b)
  ∧ (∀ v1 v2 : Value, toBool v1 = .ok true → toBool v2 = .ok true →
      ∀ (fns : FuncReg) (s : List Value) (vars : List (String × Value)),
        execInstr fns .gt ⟨v2 :: v1 :: s, vars⟩ = .next ⟨.boolean false :: s, vars⟩
      ∧ execInstr fns .eq ⟨v2 :: v1 :: s, vars⟩ = .next ⟨.boolean true :: s, vars⟩)
  ∧ execute noFns (compile (.cmpE .gt (.num (.finite 10)) (.boolLit true))) ⟨[], []⟩
      = (.ok (some (.boolean false)), ⟨[], []⟩)
  ∧ execute noFns (compile (.cmpE .gt (.num (.finite 10)) (.num (.finite 3)))) ⟨[], []⟩
      = (.ok (some (.boolean false)), ⟨[], []⟩) := by
  refine ⟨?_, ?_, fun n => rfl, fun b => rfl, ?_, rfl, rfl⟩
  · intro fns op v1 v2 s vars
    cases op <;> simp [execInstr, cmpInstr, cmpDenote, binary_op_bool_cons]
  · intro q
    simp [toBool, fne, feq]
  · intro v1 v2 h1 h2 fns s vars
    constructor <;> simp [execInstr, binary_op_bool_cons, h1, h2]

/-- C10, witness: both operands of `10 > true` coerce to true; the
comparison instructions then yield `false` for `>` and `true` for
`==`. -/
theorem C10_witness :
    execInstr noFns .gt ⟨[.boolean true, .number (.finite 10)], []⟩
      = .next ⟨[.boolean false], []⟩
  ∧ execInstr noFns .eq ⟨[.boolean true, .number (.finite 10)], []⟩
      = .next ⟨[.boolean true], []⟩ :=
  C10_cmp_on_bools.2.2.2.2.1 (.number (.finite 10)) (.boolean true)
    (by rfl) (by rfl) noFns [] []

/-- C4, counterexample: two `LoadVariable "x"` occurrences in one
compiled unit read different slots — with slot 0 (byte offset 0)
holding 1.0 and slot 1 (byte offset 8) holding 2.0, `x + x`
JIT-evaluates to 3.0 = 1.0 + 2.0, which no single-slot reading
(1+1 = 2, 2+2 = 4, 0+0 = 0) could produce, and the slot-name list
records `x` twice rather than once. -/
theorem C4_counterexample :
    jit_execute noJFns envB12 [.loadVariable "x", .loadVariable "x", .add]
      = .ok (.finite 3)
  ∧ jitVarList noJFns envB12 [.loadVariable "x", .loadVariable "x", .add]
      = .ok ["x", "x"]
  ∧ envB12 0 = .finite 1
  ∧ envB12 8 = .finite 2
  ∧ fadd (envB12 0) (envB12 0) ≠ .finite 3
  ∧ fadd (envB12 8) (envB12 8) ≠ .finite 3
  ∧ fadd (.finite 0) (.finite 0) ≠ .finite 3 := by
  have h : fadd (.finite 1) (.finite 2) = .finite 3 := by
    show F64.finite (1 + 2) = F64.finite 3; norm_num
  refine ⟨?_, rfl, rfl, rfl, ?_, ?_, ?_⟩
  · show Except.ok (fadd (.finite 1) (.finite 2)) = Except.ok (F64.finite 3)
    rw [h]
  · show F64.finite (1 + 1) ≠ F64.finite 3
    simp only [ne_eq, F64.finite.injEq]
    norm_num
  · show F64.finite (2 + 2) ≠ F64.finite 3
    simp only [ne_eq, F64.finite.injEq]
    norm_num
  · show F64.finite (0 + 0) ≠ F64.finite 3
    simp only [ne_eq, F64.finite.injEq]
    norm_num

/-- C4, amended: during JIT compilation every `LoadVariable`
occurrence — regardless of whether its name was seen before — is
assigned the next consecutive slot: the k-th load processed reads the
float at byte offset `k * 8` from the environment pointer, increments
the occurrence counter, and appends its name to the slot-name list; an
expression loading `x` twice therefore reads byte offsets 0 and 8. -/
theorem C4_slot_per_occurrence :
    (∀ (funcs : JFuncReg) (envB : JEnv) (name : String) (st : JITState),
        jitStep funcs envB (.loadVariable name) st
          = .ok ⟨.f64 (envB (st.index * 8)) :: st.stack, st.index + 1, st.vars ++ [name]⟩)
  ∧ (∀ (funcs : JFuncReg) (envB : JEnv),
        jitRun funcs envB [.loadVariable "x", .loadVariable "x"] ⟨[], 0, []⟩
          = .ok ⟨[.f64 (envB 8), .f64 (envB 0)], 2, ["x", "x"]⟩) := by
  exact ⟨fun funcs envB name st => rfl, fun funcs envB => rfl⟩

/-! ### Pow-loop lemmas (C8) -/

/-- From residue `c < 2⁶⁴`, `j ≤ c` body iterations of the generated
pow loop multiply the running result `j` times and decrement the
wrap-around counter to exactly `c - j`. -/
theorem powIterN_eq (a r : F64) :
    ∀ (j c : ℕ), j ≤ c → c < U64 → powIterN a j (r, c) = (fmulPow r a j, c - j) := by
  intro j
  induction j generalizing r with
  | zero => intro c _ _; simp [powIterN, fmulPow]
  | succ j ih =>
      intro c hj hc
      have hc1 : 1 ≤ c := le_trans (Nat.succ_le_succ (Nat.zero_le j)) hj
      have hstep : (c + (U64 - 1)) % U64 = c - 1 := by
        have hU : 1 ≤ U64 := Nat.one_le_two_pow
        have h1 : c + (U64 - 1) = U64 + (c - 1) := by omega
        rw [h1, Nat.add_mod_left, Nat.mod_eq_of_lt (by omega)]
      have : powIterN a (j + 1) (r, c) = powIterN a j (fmul r a, c - 1) := by
        simp [powIterN, powStep, hstep]
      rw [this, ih (fmul r a) (c - 1) (by omega) (by omega)]
      simp only [Prod.mk.injEq]
      exact ⟨rfl, by omega⟩

/-- From any counter residue `c < 2⁶⁴` the generated pow loop reaches
its exit branch for the first time after exactly `c` body
iterations. -/
theorem powExitsAt_self (a : F64) (c : ℕ) (hc : c < U64) : powExitsAt a c c := by
  constructor
  · rw [powIterN_eq a _ c c le_rfl hc]; simp
  · intro j hj
    rw [powIterN_eq a _ j c (le_of_lt hj) hc]
    simp
    omega

/-- Folding `fmul` over replicated copies is the pow loop's
accumulator recursion. -/
theorem prodCopies_eq_fmulPow (a : F64) :
    ∀ (n : ℕ) (r : F64), (List.replicate n a).foldl fmul r = fmulPow r a n := by
  intro n
  induction n with
  | zero => intro r; simp [fmulPow]
  | succ n ih => intro r; simp only [List.replicate, List.foldl, fmulPow]; exact ih (fmul r a)

/-- A non-negative `i64` residue is the number itself. -/
theorem toU64_ofNat (n : ℕ) (h : n < U64) : toU64 (n : ℤ) = n := by
  rw [toU64, Int.emod_eq_of_lt (by positivity) (by exact_mod_cast h)]
  simp

/-- The `i64` residue of a negative exponent in `[-2⁶³, 0)` lies in
`[2⁶³, 2⁶⁴)`. -/
theorem toU64_neg (m : ℤ) (h1 : -(2 ^ 63) ≤ m) (h2 : m < 0) :
    ((m % (U64 : ℤ)) = m + U64) ∧ 2 ^ 63 ≤ toU64 m ∧ toU64 m < U64 := by
  have hU : (U64 : ℤ) = 18446744073709551616 := by norm_num [U64]
  have hU' : U64 = 18446744073709551616 := by norm_num [U64]
  have h1' : -(9223372036854775808 : ℤ) ≤ m := by norm_num at h1 ⊢; exact h1
  have hmod : m % (U64 : ℤ) = m + U64 := by
    have h3 : (m + U64) % (U64 : ℤ) = m % (U64 : ℤ) := by
      have := Int.add_mul_emod_self_left (a := m) (b := (U64 : ℤ)) (c := 1)
      rwa [mul_one] at this
    rw [← h3, Int.emod_eq_of_lt (by omega) (by omega)]
  refine ⟨hmod, ?_, ?_⟩
  · rw [toU64, hmod]
    have h63 : (2 : ℕ) ^ 63 = 9223372036854775808 := by norm_num
    omega
  · rw [toU64, hmod]
    omega

/-- C8, counterexample: for the exponent −1 (counter residue
2⁶⁴ − 1) the generated pow loop DOES terminate: it reaches its exit
branch after exactly 2⁶⁴ − 1 iterations, because the 64-bit counter
decrement wraps around — contradicting "the loop never terminates for
a negative integer exponent". -/
theorem C8_counterexample :
    toU64 (-1) = U64 - 1 ∧ powExitsAt (.finite 2) (toU64 (-1)) (U64 - 1) := by
  have hU : U64 = 18446744073709551616 := by norm_num [U64]
  have hmod := (toU64_neg (-1) (by norm_num) (by norm_num)).1
  have h : toU64 (-1) = U64 - 1 := by
    rw [toU64, hmod]
    have hU2 : ((U64 : ℕ) : ℤ) = 18446744073709551616 := by norm_num [U64]
    omega
  refine ⟨h, ?_⟩
  rw [h]
  exact powExitsAt_self _ _ (by omega)

/-- C8, amended: the generated pow routine initialises its result to
1.0, exits immediately (returning 1.0) when the exponent converts to
integer 0, and otherwise multiplies by the base and decrements the
64-bit counter by 1, exiting exactly when the counter is zero.  For an
exponent converting to a non-negative integer `n` it exits after `n`
iterations returning the product of `n` copies of the base; for an
exponent converting to a negative integer the counter wraps around
2⁶⁴, so the loop does not exit within the first 2⁶³ iterations
(effectively, but not literally, non-terminating). -/
theorem C8_pow_loop :
    (∀ a : F64, powExitsAt a 0 0 ∧ powResult a 0 0 = .finite 1)
  ∧ (∀ (a : F64) (n : ℕ), n < 2 ^ 63 →
        toU64 (n : ℤ) = n ∧ powExitsAt a n n ∧ powResult a n n = prodCopies a n)
  ∧ (∀ (a : F64) (m : ℤ), -(2 ^ 63) ≤ m → m < 0 →
        2 ^ 63 ≤ toU64 m ∧ powExitsAt a (toU64 m) (toU64 m)) := by
  refine ⟨?_, ?_, ?_⟩
  · intro a
    exact ⟨powExitsAt_self a 0 (by norm_num [U64]), rfl⟩
  · intro a n hn
    have hU : n < U64 := by
      have h1 : U64 = 18446744073709551616 := by norm_num [U64]
      have h2 : (2 : ℕ) ^ 63 = 9223372036854775808 := by norm_num
      omega
    refine ⟨toU64_ofNat n hU, powExitsAt_self a n hU, ?_⟩
    rw [powResult, powIterN_eq a _ n n le_rfl hU, prodCopies, prodCopies_eq_fmulPow]
  · intro a m h1 h2
    obtain ⟨-, hge, hlt⟩ := toU64_neg m h1 h2
    exact ⟨hge, powExitsAt_self a _ hlt⟩

/-- C8, witness: at exponent 3 with base 2.0 the loop exits after
3 iterations with the product of three copies of the base; at
exponent −1 it exits only after 2⁶⁴ − 1 iterations. -/
theorem C8_witness :
    (toU64 ((3 : ℕ) : ℤ) = 3 ∧ powExitsAt (.finite 2) 3 3
      ∧ powResult (.finite 2) 3 3 = prodCopies (.finite 2) 3)
  ∧ (2 ^ 63 ≤ toU64 (-5) ∧ powExitsAt (.finite 2) (toU64 (-5)) (toU64 (-5))) :=
  ⟨C8_pow_loop.2.1 (.finite 2) 3 (by norm_num),
   C8_pow_loop.2.2 (.finite 2) (-5) (by norm_num) (by norm_num)⟩

/-! ### Runtime-environment lemmas (C9) -/

/-- A setter never moves the cached pointer. -/
theorem rtSet_ptr (env : RuntimeEnvironment) (name : String) (w : Word) :
    (rtSet env name w).ptr = env.ptr := by
  rw [rtSet]; cases lookupA env.map name <;> rfl

/-- A setter never changes the slot count. -/
theorem rtSet_len (env : RuntimeEnvironment) (name : String) (w : Word) :
    (rtSet env name w).data.length = env.data.length := by
  rw [rtSet]; cases lookupA env.map name <;> simp

/-- The allocation invariant: the environment's slot count never
changes, and the set of live slot-buffer allocations is exactly the
cached pointer (so at most one is live). -/
theorem applyOps_inv (len : ℕ) :
    ∀ (ops : List REOp) (s : RuntimeEnvironment × Heap),
      s.1.data.length = len →
      s.2.slotLive = (match s.1.ptr with | some p => [p] | none => []) →
      (applyOps s ops).1.data.length = len ∧
      (applyOps s ops).2.slotLive =
        (match (applyOps s ops).1.ptr with | some p => [p] | none => []) := by
  intro ops
  induction ops with
  | nil => intro s h1 h2; exact ⟨h1, h2⟩
  | cons op rest ih =>
      intro s h1 h2
      have hstep : (applyOp s op).1.data.length = len ∧
          (applyOp s op).2.slotLive =
            (match (applyOp s op).1.ptr with | some p => [p] | none => []) := by
        cases op with
        | opSetI64 n v =>
            exact ⟨by simp [applyOp, set_i64, rtSet_len, h1],
                   by simp only [applyOp, set_i64, rtSet_ptr]; exact h2⟩
        | opSetF64 n v =>
            exact ⟨by simp [applyOp, set_f64, rtSet_len, h1],
                   by simp only [applyOp, set_f64, rtSet_ptr]; exact h2⟩
        | opSetBool n v =>
            exact ⟨by simp [applyOp, set_bool, rtSet_len, h1],
                   by simp only [applyOp, set_bool, rtSet_ptr]; exact h2⟩
        | opSetArrayF64 n arr =>
            exact ⟨by simp [applyOp, set_array_f64, rtSet_len, h1],
                   by simp only [applyOp, set_array_f64, rtSet_ptr]; exact h2⟩
        | opInit =>
            simp only [applyOp, init]
            cases hp : s.1.ptr with
            | some p =>
                rw [hp] at h2
                by_cases hlen : s.1.data.length > 0
                · have hlen' : 0 < len := h1 ▸ hlen
                  simp [hp, hlen, hlen', h1, h2]
                · have hlen' : ¬0 < len := h1 ▸ hlen
                  simp [hp, hlen, hlen', h1, h2]
            | none =>
                rw [hp] at h2
                by_cases hlen : s.1.data.length > 0
                · have hlen' : 0 < len := h1 ▸ hlen
                  simp [hp, hlen, hlen', h1, h2]
                · have hlen' : ¬0 < len := h1 ▸ hlen
                  simp [hp, hlen, hlen', h1, h2]
      have := ih (applyOp s op) hstep.1 hstep.2
      simpa [applyOps, List.foldl] using this

/-- C9: starting from `new(names)` and applying any sequence of
setter/`init` operations, at most one slot-buffer allocation is ever
live (each `init` frees the previous block before allocating), and
after an `init` the pointer `as_ptr` returns is null exactly when the
environment was created with zero slot names. -/
theorem C9_env_allocation (names : List String) (ops : List REOp) :
    (applyOps (rtNew names, ⟨0, []⟩) ops).2.slotLive.length ≤ 1
  ∧ (as_ptr (applyOps (rtNew names, ⟨0, []⟩) (ops ++ [.opInit])).1 = none ↔ names = [])
  ∧ (applyOps (rtNew names, ⟨0, []⟩) (ops ++ [.opInit])).2.slotLive.length ≤ 1 := by
  have hbase1 : (rtNew names, (⟨0, []⟩ : Heap)).1.data.length = names.length := by
    simp [rtNew]
  have hbase2 : (rtNew names, (⟨0, []⟩ : Heap)).2.slotLive =
      (match (rtNew names, (⟨0, []⟩ : Heap)).1.ptr with
       | some p => [p] | none => []) := by
    simp [rtNew]
  have hmain := applyOps_inv names.length ops _ hbase1 hbase2
  have hinit := applyOps_inv names.length (ops ++ [.opInit]) _ hbase1 hbase2
  refine ⟨?_, ?_, ?_⟩
  · rw [hmain.2]
    cases (applyOps (rtNew names, ⟨0, []⟩) ops).1.ptr <;> simp
  · have happ : applyOps (rtNew names, ⟨0, []⟩) (ops ++ [.opInit])
        = applyOp (applyOps (rtNew names, ⟨0, []⟩) ops) .opInit := by
      simp [applyOps, List.foldl_append, List.foldl]
    rw [happ]
    simp only [applyOp, init, as_ptr]
    by_cases hlen : (applyOps (rtNew names, ⟨0, []⟩) ops).1.data.length > 0
    · cases hp : (applyOps (rtNew names, ⟨0, []⟩) ops).1.ptr <;>
        · simp only [hp, hlen, if_pos]
          constructor
          · intro h; exact absurd h (by simp)
          · intro h
            rw [hmain.1] at hlen
            simp [h] at hlen
    · cases hp : (applyOps (rtNew names, ⟨0, []⟩) ops).1.ptr <;>
        · simp only [hp, hlen, if_neg]
          constructor
          · intro _
            rw [hmain.1] at hlen
            cases names with
            | nil => rfl
            | cons a t => simp at hlen
          · intro _; rfl
  · rw [hinit.2]
    cases (applyOps (rtNew names, ⟨0, []⟩) (ops ++ [.opInit])).1.ptr <;> simp

/-! ### Interpreter/JIT parity development (C1) -/

/-- Composition for a straight-line prefix that completes normally. -/
theorem runList_append_next {fns : FuncReg} {p : List Bytecode} {st s' : ExecState}
    (h : runList fns p st = .next s') (q : List Bytecode) :
    runList fns (p ++ q) st = runList fns q s' := by
  rw [runList_append, h]

/-- Composition for a JIT main-block prefix that compiles. -/
theorem jitRun_append_ok {funcs : JFuncReg} {envB : JEnv} {p : List Bytecode}
    {j j' : JITState} (h : jitRun funcs envB p j = .ok j') (q : List Bytecode) :
    jitRun funcs envB (p ++ q) j = jitRun funcs envB q j' := by
  induction p generalizing j with
  | nil =>
      simp only [jitRun] at h
      cases h
      rfl
  | cons i rest ih =>
      simp only [jitRun, List.cons_append] at h ⊢
      cases hs : jitStep funcs envB i j with
      | error e => rw [hs] at h; exact Except.noConfusion h
      | ok s1 => rw [hs] at h; exact ih h

/-- The parity fragment really is a fragment of the bytecode compiler:
`compileP` is `compile_expression` on the corresponding parse tree. -/
theorem compileP_eq (e : PExpr) : compileExpr (toExpr e) = compileP e := by
  induction e <;> simp [toExpr, compileExpr, compileP, arithInstr, *]

/-- VM soundness on the parity fragment: executing the compiled code
of `e` pushes exactly one value, which represents `peval ρ e`, and
leaves the variable bindings untouched. -/
theorem vm_pexpr (fns : FuncReg) (ρ : String → F64) :
    ∀ (e : PExpr) (st : ExecState),
      (∀ n, n ∈ pvars e → lookupA st.vars n = some (.number (ρ n))) →
      ∃ v, runList fns (compileP e) st = .next ⟨v :: st.stack, st.vars⟩ ∧
           valToF64 v = some (peval ρ e) := by
  intro e
  induction e with
  | num x =>
      intro st _
      exact ⟨.number x, rfl, rfl⟩
  | boolLit b =>
      intro st _
      exact ⟨.boolean b, rfl, rfl⟩
  | _var n =>
      intro st h
      refine ⟨.number (ρ n), ?_, rfl⟩
      have hn := h n (by simp [pvars])
      simp [runList, execInstr, hn]
  | addE l r ihl ihr =>
      intro st h
      obtain ⟨vl, hl, hvl⟩ := ihl st (fun n hn => h n (by simp [pvars, hn]))
      obtain ⟨vr, hr, hvr⟩ :=
        ihr ⟨vl :: st.stack, st.vars⟩ (fun n hn => h n (by simp [pvars, hn]))
      refine ⟨.number (fadd (peval ρ l) (peval ρ r)), ?_, rfl⟩
      rw [compileP, runList_append_next hl, runList_append_next hr]
      simp [runList, execInstr, binary_op_cons,
        toNumber_of_valToF64 hvl, toNumber_of_valToF64 hvr]
  | subE l r ihl ihr =>
      intro st h
      obtain ⟨vl, hl, hvl⟩ := ihl st (fun n hn => h n (by simp [pvars, hn]))
      obtain ⟨vr, hr, hvr⟩ :=
        ihr ⟨vl :: st.stack, st.vars⟩ (fun n hn => h n (by simp [pvars, hn]))
      refine ⟨.number (fsub (peval ρ l) (peval ρ r)), ?_, rfl⟩
      rw [compileP, runList_append_next hl, runList_append_next hr]
      simp [runList, execInstr, binary_op_cons,
        toNumber_of_valToF64 hvl, toNumber_of_valToF64 hvr]
  | mulE l r ihl ihr =>
      intro st h
      obtain ⟨vl, hl, hvl⟩ := ihl st (fun n hn => h n (by simp [pvars, hn]))
      obtain ⟨vr, hr, hvr⟩ :=
        ihr ⟨vl :: st.stack, st.vars⟩ (fun n hn => h n (by simp [pvars, hn]))
      refine ⟨.number (fmul (peval ρ l) (peval ρ r)), ?_, rfl⟩
      rw [compileP, runList_append_next hl, runList_append_next hr]
      simp [runList, execInstr, binary_op_cons,
        toNumber_of_valToF64 hvl, toNumber_of_valToF64 hvr]
  | divE l r ihl ihr =>
      intro st h
      obtain ⟨vl, hl, hvl⟩ := ihl st (fun n hn => h n (by simp [pvars, hn]))
      obtain ⟨vr, hr, hvr⟩ :=
        ihr ⟨vl :: st.stack, st.vars⟩ (fun n hn => h n (by simp [pvars, hn]))
      refine ⟨.number (fdiv (peval ρ l) (peval ρ r)), ?_, rfl⟩
      rw [compileP, runList_append_next hl, runList_append_next hr]
      simp [runList, execInstr, binary_op_cons,
        toNumber_of_valToF64 hvl, toNumber_of_valToF64 hvr]
  | andE l r ihl ihr =>
      intro st h
      obtain ⟨vl, hl, hvl⟩ := ihl st (fun n hn => h n (by simp [pvars, hn]))
      obtain ⟨vr, hr, hvr⟩ :=
        ihr ⟨vl :: st.stack, st.vars⟩ (fun n hn => h n (by simp [pvars, hn]))
      refine ⟨.boolean (fne (peval ρ l) (.finite 0) && fne (peval ρ r) (.finite 0)),
        ?_, rfl⟩
      rw [compileP, runList_append_next hl, runList_append_next hr]
      simp [runList, execInstr, binary_op_bool_cons,
        toBool_of_valToF64 hvl, toBool_of_valToF64 hvr]
  | orE l r ihl ihr =>
      intro st h
      obtain ⟨vl, hl, hvl⟩ := ihl st (fun n hn => h n (by simp [pvars, hn]))
      obtain ⟨vr, hr, hvr⟩ :=
        ihr ⟨vl :: st.stack, st.vars⟩ (fun n hn => h n (by simp [pvars, hn]))
      refine ⟨.boolean (fne (peval ρ l) (.finite 0) || fne (peval ρ r) (.finite 0)),
        ?_, rfl⟩
      rw [compileP, runList_append_next hl, runList_append_next hr]
      simp [runList, execInstr, binary_op_bool_cons,
        toBool_of_valToF64 hvl, toBool_of_valToF64 hvr]

/-- Binary-node step of the JIT parity induction: compile left, then
right, then one opcode whose generated code combines the two floats
with `f`. -/
theorem jit_pexpr_bin (funcs : JFuncReg) (envB : JEnv) (ρ : String → F64)
    (l r e : PExpr) (instr : Bytecode) (f : F64 → F64 → F64)
    (hc : compileP e = compileP l ++ (compileP r ++ [instr]))
    (hpv : pvars e = pvars l ++ pvars r)
    (hpe : peval ρ e = f (peval ρ l) (peval ρ r))
    (hst : ∀ (xa xb : F64) (stk : List JVal) (idx : ℕ) (vs : List String),
        jitStep funcs envB instr ⟨.f64 xb :: .f64 xa :: stk, idx, vs⟩
          = .ok ⟨.f64 (f xa xb) :: stk, idx, vs⟩)
    (ihl : ∀ j : JITState,
        (∀ i n, (pvars l).get? i = some n → envB ((j.index + i) * 8) = ρ n) →
        jitRun funcs envB (compileP l) j =
          .ok ⟨.f64 (peval ρ l) :: j.stack, j.index + (pvars l).length,
               j.vars ++ pvars l⟩)
    (ihr : ∀ j : JITState,
        (∀ i n, (pvars r).get? i = some n → envB ((j.index + i) * 8) = ρ n) →
        jitRun funcs envB (compileP r) j =
          .ok ⟨.f64 (peval ρ r) :: j.stack, j.index + (pvars r).length,
               j.vars ++ pvars r⟩) :
    ∀ j : JITState,
      (∀ i n, (pvars e).get? i = some n → envB ((j.index + i) * 8) = ρ n) →
      jitRun funcs envB (compileP e) j =
        .ok ⟨.f64 (peval ρ e) :: j.stack, j.index + (pvars e).length,
             j.vars ++ pvars e⟩ := by
  intro j h
  rw [hpv] at h
  have hl := ihl j (fun i n hn => by
    have hi : i < (pvars l).length := by
      rcases List.get?_eq_some.1 hn with ⟨hlt, -⟩
      exact hlt
    exact h i n (by rw [List.get?_append hi]; exact hn))
  have hr := ihr ⟨.f64 (peval ρ l) :: j.stack, j.index + (pvars l).length,
      j.vars ++ pvars l⟩ (fun i n hn => by
    have := h ((pvars l).length + i) n (by
      rw [List.get?_append_right (by omega)]
      simpa using hn)
    simpa [Nat.add_assoc] using this)
  rw [hc, jitRun_append_ok hl, jitRun_append_ok hr]
  have hfin : jitRun funcs envB [instr]
      ⟨.f64 (peval ρ r) :: .f64 (peval ρ l) :: j.stack,
       (j.index + (pvars l).length) + (pvars r).length,
       (j.vars ++ pvars l) ++ pvars r⟩
      = .ok ⟨.f64 (f (peval ρ l) (peval ρ r)) :: j.stack,
             (j.index + (pvars l).length) + (pvars r).length,
             (j.vars ++ pvars l) ++ pvars r⟩ := by
    simp only [jitRun]
    rw [hst]
    rfl
  rw [hfin, hpe, hpv]
  simp [List.append_assoc, Nat.add_assoc]

/-- JIT soundness on the parity fragment: compiling-and-running the
code of `e` pushes the float `peval ρ e`, advances the occurrence
counter by the number of loads and appends the loaded names — provided
each load occurrence's slot holds the float value of its variable. -/
theorem jit_pexpr (funcs : JFuncReg) (envB : JEnv) (ρ : String → F64) :
    ∀ (e : PExpr) (j : JITState),
      (∀ i n, (pvars e).get? i = some n → envB ((j.index + i) * 8) = ρ n) →
      jitRun funcs envB (compileP e) j =
        .ok ⟨.f64 (peval ρ e) :: j.stack, j.index + (pvars e).length,
             j.vars ++ pvars e⟩ := by
  intro e
  induction e with
  | num x =>
      intro j _
      simp only [compileP, pvars, peval, List.length_nil, Nat.add_zero, List.append_nil]
      rfl
  | boolLit b =>
      intro j _
      simp only [compileP, pvars, peval, List.length_nil, Nat.add_zero, List.append_nil]
      rfl
  | _var n =>
      intro j h
      have h0 := h 0 n (by simp [pvars])
      simp only [Nat.add_zero] at h0
      simp only [compileP, pvars, peval, List.length_cons, List.length_nil, Nat.zero_add]
      rw [← h0]
      rfl
  | addE l r ihl ihr =>
      exact jit_pexpr_bin funcs envB ρ l r (.addE l r) .add fadd rfl rfl rfl
        (fun xa xb stk idx vs => rfl) ihl ihr
  | subE l r ihl ihr =>
      exact jit_pexpr_bin funcs envB ρ l r (.subE l r) .sub fsub rfl rfl rfl
        (fun xa xb stk idx vs => rfl) ihl ihr
  | mulE l r ihl ihr =>
      exact jit_pexpr_bin funcs envB ρ l r (.mulE l r) .mul fmul rfl rfl rfl
        (fun xa xb stk idx vs => rfl) ihl ihr
  | divE l r ihl ihr =>
      exact jit_pexpr_bin funcs envB ρ l r (.divE l r) .div fdiv rfl rfl rfl
        (fun xa xb stk idx vs => rfl) ihl ihr
  | andE l r ihl ihr =>
      exact jit_pexpr_bin funcs envB ρ l r (.andE l r) .and
        (fun a b => b01 (fne a (.finite 0) && fne b (.finite 0))) rfl rfl rfl
        (fun xa xb stk idx vs => rfl) ihl ihr
  | orE l r ihl ihr =>
      exact jit_pexpr_bin funcs envB ρ l r (.orE l r) .or
        (fun a b => b01 (fne a (.finite 0) || fne b (.finite 0))) rfl rfl rfl
        (fun xa xb stk idx vs => rfl) ihl ihr

/-- C1, counterexample: for the expression `10 > 3` the bytecode VM
boolean-coerces both operands and compares the booleans, yielding
`Boolean(false)` (float 0.0), while the JIT compares the floats
directly and returns 1.0 — the two backends disagree numerically. -/
theorem C1_counterexample :
    execute noFns (compile (.cmpE .gt (.num (.finite 10)) (.num (.finite 3)))) ⟨[], []⟩
      = (.ok (some (.boolean false)), ⟨[], []⟩)
  ∧ valToF64 (.boolean false) = some (.finite 0)
  ∧ jit_execute noJFns envZero
      (compile (.cmpE .gt (.num (.finite 10)) (.num (.finite 3)))) = .ok (.finite 1)
  ∧ (F64.finite 0 : F64) ≠ (F64.finite 1 : F64) :=
  ⟨rfl, rfl, rfl, by decide⟩

/-- C1, amended: VM/JIT parity holds on the fragment with float
literals, boolean literals, float-bound variables, the arithmetic
operators `+ - * /` and the non-short-circuit AND/OR, provided the
environment buffer is filled per load occurrence (slot `i` holds the
value of the i-th `LoadVariable`): both backends produce the same
float, with booleans as 0.0/1.0.  (Comparisons, `%`, `^` and NOT are
excluded: the VM compares coerced booleans where the JIT compares
floats — see the counterexample — the VM's `%` is float `fmod` where
the JIT rounds to integers, and the JIT's `^` loop and NOT lowering
diverge from the VM.) -/
theorem C1_parity_fragment (e : PExpr) (fns : FuncReg) (funcs : JFuncReg)
    (ρ : String → F64) (binds : List (String × Value)) (envB : JEnv)
    (hb : ∀ n, n ∈ pvars e → lookupA binds n = some (.number (ρ n)))
    (hv : ∀ i n, (pvars e).get? i = some n → envB (i * 8) = ρ n) :
    ∃ v, execute fns (compile (toExpr e)) ⟨[], binds⟩ = (.ok (some v), ⟨[], binds⟩)
      ∧ valToF64 v = some (peval ρ e)
      ∧ jit_execute funcs envB (compile (toExpr e)) = .ok (peval ρ e) := by
  have hc : compile (toExpr e) = compileP e ++ [.noOp] := by
    rw [compile, compileP_eq]
  obtain ⟨v, hrun, hval⟩ := vm_pexpr fns ρ e ⟨[], binds⟩ hb
  have hj := jit_pexpr funcs envB ρ e ⟨[], 0, []⟩
    (fun i n hn => by simpa using hv i n hn)
  refine ⟨v, ?_, hval, ?_⟩
  · rw [hc, execute, runList_append_next hrun]
    rfl
  · rw [hc, jit_execute, jitRun_append_ok hj]
    rfl

/-- C1, witness for the amended parity theorem: `x AND 5` with `x`
bound to 2.0 in the VM bindings and slot 0 of the JIT environment —
both sides yield 1.0 (true). -/
theorem C1_parity_witness :
    ∃ v, execute noFns (compile (toExpr (.andE (._var "x") (.num (.finite 5)))))
          ⟨[], bindX2⟩ = (.ok (some v), ⟨[], bindX2⟩)
      ∧ valToF64 v = some (peval rhoX2 (.andE (._var "x") (.num (.finite 5))))
      ∧ jit_execute noJFns envBx2
          (compile (toExpr (.andE (._var "x") (.num (.finite 5)))))
          = .ok (peval rhoX2 (.andE (._var "x") (.num (.finite 5)))) :=
  C1_parity_fragment (.andE (._var "x") (.num (.finite 5))) noFns noJFns rhoX2
    bindX2 envBx2
    (by
      intro n hn
      simp [pvars] at hn
      subst hn
      rfl)
    (by
      intro i n hn
      match i, hn with
      | 0, hn =>
          simp [pvars] at hn
          subst hn
          rfl)

end Quantixis
